import Mathlib

/-!
Verification of the stratum-work repository's specification claims.

This file gives a shallow embedding, in Lean, of the pure computational
core of the repository (coinbase reconstruction and parsing, block-height
derivation, pool identification, per-height analyses, and the Stratum
line-framing reader), and proves or refutes the frozen specification
claims against that embedding.

Python byte strings are modelled as lists of naturals (each < 256 by
construction), Python text strings handled character-wise as lists of
characters, and Python floats for output values as rationals.  Fallible
Python code (exceptions) is modelled with Option.
-/

set_option maxRecDepth 10000

namespace StratumWork

/-! ### Byte and hex helpers -/

/-- Little-endian interpretation of a byte sequence; models Python
int.from_bytes with byteorder little (empty input gives 0). -/
def leNat (bs : List Nat) : Nat :=
  bs.foldr (fun b acc => b + 256 * acc) 0

/-- Value of one hex digit, or none; models a hex digit accepted by
Python int with base 16 and by bytes.fromhex. -/
def hexDigitVal (c : Char) : Option Nat :=
  if ('0' ≤ c ∧ c ≤ '9') then some (c.toNat - '0'.toNat)
  else if ('a' ≤ c ∧ c ≤ 'f') then some (c.toNat - 'a'.toNat + 10)
  else if ('A' ≤ c ∧ c ≤ 'F') then some (c.toNat - 'A'.toNat + 10)
  else none

/-- Strict hex decoding: even length, hex digits only; models Python
bytes.fromhex (and binascii.unhexlify) on whitespace-free input, failing
with an exception otherwise. -/
def hexToBytes : List Char → Option (List Nat)
  | [] => some []
  | [_] => none
  | c1 :: c2 :: rest => do
    let h ← hexDigitVal c1
    let l ← hexDigitVal c2
    let bs ← hexToBytes rest
    pure ((16 * h + l) :: bs)

/-- Loose hex decoding used by the DATUM template parser in
pool_identification.py: the hex string is consumed two characters at a
time, a trailing single character is accepted as one hex digit, and the
loop breaks (keeping the bytes read so far) at the first invalid chunk. -/
def hexToBytesLoose : List Char → List Nat
  | [] => []
  | [c] =>
    match hexDigitVal c with
    | some v => [v]
    | none => []
  | c1 :: c2 :: rest =>
    match hexDigitVal c1, hexDigitVal c2 with
    | some h, some l => (16 * h + l) :: hexToBytesLoose rest
    | _, _ => []

/-- Two's-complement reading of a 64-bit unsigned value as a signed
integer; models the signed int64 field nValue of a parsed transaction
output. -/
def toSigned64 (n : Nat) : Int :=
  if n < 2 ^ 63 then (n : Int) else (n : Int) - 2 ^ 64

/-! ### Bitcoin transaction deserialization

Models the wire-format transaction deserializers used by the source:
python-bitcoinlib CTransaction.stream_deserialize (in
invalid_coinbase_no_merkle.py) and pycoin network.Tx.from_hex (in
collector/main.py and decode.py).  Both read: a 4-byte version, an
optional segwit marker/flag pair 0x00 0x01, a var-int-counted input
vector, a var-int-counted output vector, witness data when the marker
was present, and a 4-byte lock time; trailing bytes are ignored and a
short read raises (modelled by none). -/

structure TxIn where
  prevoutHash : List Nat
  prevoutN : Nat
  script : List Nat
  sequence : Nat
  deriving DecidableEq, Repr

structure TxOut where
  nValue : Int
  scriptPubKey : List Nat
  deriving DecidableEq, Repr

structure Tx where
  version : Nat
  vin : List TxIn
  vout : List TxOut
  lockTime : Nat
  deriving DecidableEq, Repr

/-- Read exactly n bytes from the stream, failing on a short read. -/
def readBytes (n : Nat) (s : List Nat) : Option (List Nat × List Nat) :=
  if n ≤ s.length then some (s.take n, s.drop n) else none

/-- Read an n-byte little-endian unsigned integer. -/
def readLE (n : Nat) (s : List Nat) : Option (Nat × List Nat) :=
  (readBytes n s).map (fun p => (leNat p.1, p.2))

/-- Bitcoin CompactSize var-int. -/
def readVarint (s : List Nat) : Option (Nat × List Nat) :=
  match s with
  | [] => none
  | b :: r =>
    if b < 253 then some (b, r)
    else if b = 253 then readLE 2 r
    else if b = 254 then readLE 4 r
    else readLE 8 r

/-- Length-prefixed byte string (var-int length, then that many bytes);
the deserializer rejects lengths above MAX_SIZE = 0x02000000. -/
def readVarBytes (s : List Nat) : Option (List Nat × List Nat) := do
  let (n, s1) ← readVarint s
  if n > 0x02000000 then none else readBytes n s1

def readTxIn (s : List Nat) : Option (TxIn × List Nat) := do
  let (h, s1) ← readBytes 32 s
  let (idx, s2) ← readLE 4 s1
  let (scr, s3) ← readVarBytes s2
  let (seq, s4) ← readLE 4 s3
  pure (⟨h, idx, scr, seq⟩, s4)

def readTxOut (s : List Nat) : Option (TxOut × List Nat) := do
  let (v, s1) ← readLE 8 s
  let (scr, s2) ← readVarBytes s1
  pure (⟨toSigned64 v, scr⟩, s2)

/-- Read n consecutive items with a given item reader. -/
def readNItems (read : List Nat → Option (α × List Nat)) :
    Nat → List Nat → Option (List α × List Nat)
  | 0, s => some ([], s)
  | n + 1, s => do
    let (a, s1) ← read s
    let (as1, s2) ← readNItems read n s1
    pure (a :: as1, s2)

/-- Var-int-counted vector of items. -/
def readVec (read : List Nat → Option (α × List Nat)) (s : List Nat) :
    Option (List α × List Nat) := do
  let (n, s1) ← readVarint s
  readNItems read n s1

/-- Witness stack for one input: var-int item count, each item a
length-prefixed byte string. -/
def readInWitness (s : List Nat) : Option (List (List Nat) × List Nat) :=
  readVec readVarBytes s

/-- Deserialize a transaction from a byte stream, ignoring trailing
bytes. -/
def parseTxBytes (s : List Nat) : Option Tx := do
  let (ver, s0) ← readLE 4 s
  let (mk, s1) ← readBytes 2 s0
  if mk = [0, 1] then do
    let (vin, s2) ← readVec readTxIn s1
    let (vout, s3) ← readVec readTxOut s2
    let (_wit, s4) ← readNItems readInWitness vin.length s3
    let (lock, _) ← readLE 4 s4
    pure ⟨ver, vin, vout, lock⟩
  else do
    let (vin, s2) ← readVec readTxIn s0
    let (vout, s3) ← readVec readTxOut s2
    let (lock, _) ← readLE 4 s3
    pure ⟨ver, vin, vout, lock⟩

/-- Deserialize a transaction from a hex string. -/
def parseTxHex (hex : List Char) : Option Tx := do
  let bs ← hexToBytes hex
  parseTxBytes bs

/-! ### Coinbase reconstruction and output-value summing
(backend/analytics/invalid_coinbase_no_merkle.py) -/

/-- The string of 2 * n zero characters; models the Python expression
with the string of two zeros repeated n times. -/
def repeat00 : Nat → List Char
  | 0 => []
  | n + 1 => '0' :: '0' :: repeat00 n

/-- reconstruct_coinbase_raw from invalid_coinbase_no_merkle.py: plain
concatenation of coinbase1, extranonce1, 2 * extranonce2_length zero
characters, and coinbase2.  With extranonce2_length a natural number the
exception fallback branch of the source is unreachable. -/
def reconstruct_coinbase_raw (coinbase1 extranonce1 : List Char)
    (extranonce2_length : Nat) (coinbase2 : List Char) : List Char :=
  coinbase1 ++ extranonce1 ++ repeat00 extranonce2_length ++ coinbase2

/-- parse_tx_total_output_value_sats: sum of the nValue fields of the
parsed transaction's outputs, or 0 when hex decoding or deserialization
fails (the source catches every exception and returns 0). -/
def parse_tx_total_output_value_sats (coinbase_raw_hex : List Char) : Int :=
  match parseTxHex coinbase_raw_hex with
  | none => 0
  | some tx => (tx.vout.map TxOut.nValue).sum

/-- get_block_subsidy_sats: 50 * 10^8 shifted right by one per halving
epoch of 210000 blocks, zero from 64 halvings on. -/
def get_block_subsidy_sats (height : Nat) : Nat :=
  let halvings := height / 210000
  if halvings ≥ 64 then 0 else (50 * 100000000) >>> halvings

/-- Python str.lower restricted to ASCII case mapping, character by
character (all strings lowered by the embedded code are ASCII). -/
def lowerString (s : String) : String :=
  String.mk (s.data.map Char.toLower)

/-! ### NotifyTemplate documents and derived height
(collector/main.py create_notification_document) -/

/-- One persisted mining_notify document, with the fields the analytics
read back.  Byte-oriented hex fields are character lists; display fields
are strings. -/
structure NotifyTemplate where
  pool_name : String
  height : Nat
  job_id : String
  prev_hash : String
  coinbase1 : List Char
  coinbase2 : List Char
  merkle_branches : List String
  version : String
  nbits : String
  ntime : String
  clean_jobs : Bool
  extranonce1 : List Char
  extranonce2_length : Nat
  deriving DecidableEq, Repr

/-- The height computed by create_notification_document: parse the
reconstructed coinbase hex as a transaction and read bytes 1 to 3
(Python slice 1:4) of the first input's script little-endian; any
exception (hex or transaction parse failure, missing input) leaves the
height at 0.  decode.py process_mining_notify computes the height by the
same expression. -/
def derived_height (coinbase1 extranonce1 : List Char)
    (extranonce2_length : Nat) (coinbase2 : List Char) : Nat :=
  match parseTxHex (reconstruct_coinbase_raw coinbase1 extranonce1
      extranonce2_length coinbase2) with
  | none => 0
  | some tx =>
    match tx.vin with
    | [] => 0
    | txin :: _ => leNat ((txin.script.drop 1).take 3)

/-- Positional params of a mining.notify message, as read by
create_notification_document. -/
structure MiningNotifyParams where
  job_id : String
  prev_hash : String
  coinbase1 : List Char
  coinbase2 : List Char
  merkle_branches : List String
  version : String
  nbits : String
  ntime : String
  clean_jobs : Bool
  deriving DecidableEq, Repr

/-- create_notification_document from collector/main.py, restricted to
the persisted fields (the generated uuid and capture timestamp are
omitted: no claim mentions them). -/
def create_notification_document (p : MiningNotifyParams)
    (pool_name : String) (extranonce1 : List Char)
    (extranonce2_length : Nat) : NotifyTemplate :=
  { pool_name := pool_name
    height := derived_height p.coinbase1 extranonce1 extranonce2_length p.coinbase2
    job_id := p.job_id
    prev_hash := p.prev_hash
    coinbase1 := p.coinbase1
    coinbase2 := p.coinbase2
    merkle_branches := p.merkle_branches
    version := p.version
    nbits := p.nbits
    ntime := p.ntime
    clean_jobs := p.clean_jobs
    extranonce1 := extranonce1
    extranonce2_length := extranonce2_length }

/-- Transcribes the specification's height-extraction rule, for
comparison with the code: n = script[0] is the push length, the height
is the little-endian integer of bytes 1..1+n, tolerating n up to 4 and
returning 0 beyond. -/
def spec_height_rule (script : List Nat) : Nat :=
  match script with
  | [] => 0
  | n :: rest => if n ≤ 4 then leNat (rest.take n) else 0

/-- The first input script of the transaction parsed from the
reconstructed coinbase, or the empty script when parsing fails or the
transaction has no input. -/
def reconstructed_script (coinbase1 extranonce1 : List Char)
    (extranonce2_length : Nat) (coinbase2 : List Char) : List Nat :=
  match parseTxHex (reconstruct_coinbase_raw coinbase1 extranonce1
      extranonce2_length coinbase2) with
  | none => []
  | some tx =>
    match tx.vin with
    | [] => []
    | txin :: _ => txin.script

/-! ### invalid_coinbase_no_merkle analysis
(backend/analytics/invalid_coinbase_no_merkle.py) -/

structure Offender where
  pool_name : String
  total_sats : Int
  subsidy_sats : Int
  deriving DecidableEq, Repr

structure InvalidCoinbaseFlag where
  key : String
  icon : String
  offenders : List Offender
  deriving DecidableEq, Repr

/-- The offender entry contributed by one template in
analyze_invalid_coinbase_without_merkle: only templates whose
merkle_branches list is empty are checked; the coinbase is
reconstructed, its outputs summed, and an entry is recorded when the
sum strictly exceeds the subsidy. -/
def offenderOf (subsidy : Int) (t : NotifyTemplate) : Option Offender :=
  if t.merkle_branches = [] then
    let raw := reconstruct_coinbase_raw t.coinbase1 t.extranonce1
      t.extranonce2_length t.coinbase2
    let total := parse_tx_total_output_value_sats raw
    if subsidy < total then some ⟨t.pool_name, total, subsidy⟩ else none
  else none

/-- analyze_invalid_coinbase_without_merkle: collect the offender
entries in template order and emit the flag exactly when there is at
least one. -/
def analyze_invalid_coinbase_without_merkle (templates : List NotifyTemplate)
    (height : Nat) : Option InvalidCoinbaseFlag :=
  let subsidy : Int := get_block_subsidy_sats height
  let offenders := templates.filterMap (offenderOf subsidy)
  if offenders = [] then none
  else some ⟨"invalid_coinbase_no_merkle", "error", offenders⟩

/-! ### prev_hash divergence analysis
(backend/analytics/prev_hash_divergence.py) -/

structure PrevHashFlag where
  key : String
  icon : String
  groups : List (String × List String)
  deriving DecidableEq, Repr

/-- prev_to_pools.setdefault(prev, []).append(pool) on an
insertion-ordered association list: append the pool to the existing
entry for the key, or add the key at the end. -/
def addToGroup : List (String × List String) → String → String →
    List (String × List String)
  | [], k, v => [(k, [v])]
  | (k1, vs) :: rest, k, v =>
    if k1 = k then (k1, vs ++ [v]) :: rest
    else (k1, vs) :: addToGroup rest k v

/-- The grouping loop of analyze_prev_hash_divergence: a Python dict in
insertion order, keyed by lowercased prev_hash, skipping templates whose
prev_hash is empty. -/
def groupPrevHash : List NotifyTemplate → List (String × List String) →
    List (String × List String)
  | [], acc => acc
  | t :: ts, acc =>
    let prev := lowerString t.prev_hash
    groupPrevHash ts (if prev = "" then acc else addToGroup acc prev t.pool_name)

/-- Lexicographic comparison of character lists by code point; the
order by which Python sorts strings. -/
def charListLe : List Char → List Char → Bool
  | [], _ => true
  | _ :: _, [] => false
  | a :: as, b :: bs =>
    if a.toNat < b.toNat then true
    else if b.toNat < a.toNat then false
    else charListLe as bs

/-- The string order used by Python sorted: code-point lexicographic. -/
def strLeP (a b : String) : Prop :=
  charListLe a.data b.data = true

instance : DecidableRel strLeP := fun a b =>
  instDecidableEqBool (charListLe a.data b.data) true

/-- sorted(list(set(v))): the ascending sorted list of the distinct pool
names; a stable insertion sort after removing duplicates computes it. -/
def sortedUnique (v : List String) : List String :=
  List.insertionSort strLeP v.dedup

/-- analyze_prev_hash_divergence: partition by lowercased prev_hash and
emit the fork flag exactly when more than one partition exists. -/
def analyze_prev_hash_divergence (templates : List NotifyTemplate) :
    Option PrevHashFlag :=
  let groups := groupPrevHash templates []
  if groups.length ≤ 1 then none
  else some ⟨"prev_hash_fork", "fork",
    groups.map (fun g => (g.1, sortedUnique g.2))⟩

/-! ### Block-path coinbase extraction (backend/bitcoin_utils.py) -/

/-- The scriptPubKey of a verbosity-2 output, with the optional fields
extract_coinbase_data reads: the legacy plural addresses list, the
modern singular address, and the descriptor (whose branch in the source
additionally requires the address key and is therefore unreachable). -/
structure ScriptPubKey where
  addresses : Option (List String)
  address : Option String
  desc : Option String
  deriving DecidableEq, Repr

/-- One vout of the coinbase transaction; value defaults to 0 when the
key is absent and is modelled as a rational. -/
structure BlockVout where
  scriptPubKey : ScriptPubKey
  value : ℚ
  deriving DecidableEq, Repr

/-- vin[0] of the coinbase transaction: the script is under
scriptSig.hex (legacy) or coinbase (modern). -/
structure BlockVin where
  scriptSigHex : Option String
  coinbase : Option String
  deriving DecidableEq, Repr

/-- The first transaction of a verbosity-2 block object. -/
structure CoinbaseTx where
  vin : List BlockVin
  vout : List BlockVout
  deriving DecidableEq, Repr

/-- Address selection for one vout, as in both loops of
extract_coinbase_data: the plural addresses list when present, else the
singular address, else nothing (the desc branch of the source requires
the address key already handled and never fires). -/
def voutAddresses (spk : ScriptPubKey) : List String :=
  match spk.addresses with
  | some l => l
  | none =>
    match spk.address with
    | some a => [a]
    | none => []

/-- The address occurrence list collected by the first loop of
extract_coinbase_data, in vout order, without deduplication. -/
def collectedAddresses (vouts : List BlockVout) : List String :=
  vouts.flatMap (fun o => voutAddresses o.scriptPubKey)

/-- Cumulative output value credited to an address by the
address_values accumulation loop: every occurrence of the address in a
vout's selection adds that vout's value (an address absent from every
vout gets the dict-lookup default 0). -/
def addressValue (vouts : List BlockVout) (a : String) : ℚ :=
  (vouts.flatMap (fun o =>
    (voutAddresses o.scriptPubKey).map (fun x => (x, o.value)))).foldr
    (fun p acc => if p.1 = a then p.2 + acc else acc) 0

/-- extract_coinbase_data: pick the coinbase script (scriptSig.hex, else
coinbase, else a KeyError modelled by none; an absent vin[0] is an
uncaught IndexError, also none), and sort the collected address
occurrences by descending cumulative value with Python's stable sort. -/
def extract_coinbase_data (tx : CoinbaseTx) : Option (String × List String) :=
  match tx.vin with
  | [] => none
  | vin0 :: _ =>
    let scriptSel : Option String :=
      match vin0.scriptSigHex with
      | some h => some h
      | none => vin0.coinbase
    match scriptSel with
    | none => none
    | some sig =>
      some (sig, List.insertionSort
        (fun a b => addressValue tx.vout b ≤ addressValue tx.vout a)
        (collectedAddresses tx.vout))

/-! ### Pool identification (backend/analytics/pool_identification.py,
mirrored by PoolsManager in backend/main.py)

The two Python-library calls that are external to the repository are
parameters of the embedding: dec models bytes.decode with utf-8 and
replacement, and rmatch models re.search with IGNORECASE. -/

/-- One pool definition from the rule set. -/
structure PoolDef where
  name : String
  slug : Option String
  link : String
  addresses : List String
  tags : List (List Char)
  regexes : List (List Char)
  deriving DecidableEq, Repr

/-- The match dictionary built on a successful identification. -/
structure PoolMatch where
  id : String
  name : String
  slug : String
  link : String
  match_type : String
  identification_method : String
  datum_template_creator : Option (List Char)
  deriving DecidableEq, Repr

/-- Slug fallback: the lowercased name with spaces replaced by
hyphens. -/
def slugify (name : String) : String :=
  String.mk ((lowerString name).data.map (fun c => if c = ' ' then '-' else c))

/-- The match dictionary for a pool, with equal match_type and
identification_method as in the source. -/
def mkPoolMatch (pool_id : String) (p : PoolDef) (method : String) : PoolMatch :=
  ⟨pool_id, p.name, p.slug.getD (slugify p.name), p.link, method, method, none⟩

/-- Inner loop of identify_by_address: first pool, in rule-set
iteration order, one of whose addresses occurs among the coinbase
addresses. -/
def identify_by_address_go (addrs : List String) :
    List (String × PoolDef) → Option PoolMatch
  | [] => none
  | (pid, p) :: rest =>
    if addrs.any (fun a => p.addresses.contains a) then
      some (mkPoolMatch pid p "address")
    else identify_by_address_go addrs rest

/-- identify_by_address, with the empty coinbase-address guard. -/
def identify_by_address (pools : List (String × PoolDef))
    (coinbase_addresses : List String) : Option PoolMatch :=
  if coinbase_addresses.isEmpty then none
  else identify_by_address_go coinbase_addresses pools

/-- Executable substring test on character lists, used for the Python
in-operator on strings. -/
def isSubstringOf (needle : List Char) : List Char → Bool
  | [] => needle.isEmpty
  | c :: rest => needle.isPrefixOf (c :: rest) || isSubstringOf needle rest

/-- Inner loop of identify_by_tag: for each pool in iteration order,
first its literal tags (substring of the decoded text), then its
regexes; the first pool with either kind of match wins. -/
def identify_by_tag_go (rmatch : List Char → List Char → Bool)
    (text : List Char) : List (String × PoolDef) → Option PoolMatch
  | [] => none
  | (pid, p) :: rest =>
    if p.tags.any (fun tag => isSubstringOf tag text) then
      some (mkPoolMatch pid p "tag")
    else if p.regexes.any (fun pat => rmatch pat text) then
      some (mkPoolMatch pid p "tag")
    else identify_by_tag_go rmatch text rest

/-- The decoded coinbase text: bytes.fromhex (whose failure is the
caught exception that makes identify_by_tag return no match), then the
byte-to-text decoder parameter, then removal of newline characters. -/
def decode_coinbase_text (dec : List Nat → List Char) (hex : List Char) :
    Option (List Char) :=
  (hexToBytes hex).map (fun bs => (dec bs).filter (fun c => c ≠ '\n'))

/-- identify_by_tag, with the empty-script guard. -/
def identify_by_tag (dec : List Nat → List Char)
    (rmatch : List Char → List Char → Bool)
    (pools : List (String × PoolDef)) (coinbase_script_hex : List Char) :
    Option PoolMatch :=
  if coinbase_script_hex.isEmpty then none
  else
    match decode_coinbase_text dec coinbase_script_hex with
    | none => none
    | some text => identify_by_tag_go rmatch text pools

/-! #### DATUM template creator parsing -/

/-- Python str.split on one separator character, keeping empty parts. -/
def splitOnChar (sep : Char) : List Char → List (List Char)
  | [] => [[]]
  | c :: rest =>
    if c = sep then [] :: splitOnChar sep rest
    else
      match splitOnChar sep rest with
      | [] => [[c]]
      | p :: ps => (c :: p) :: ps

/-- A character kept by the cleaning substitution: ASCII letters,
digits, and the space. -/
def isWordChar (c : Char) : Bool :=
  ('a' ≤ c ∧ c ≤ 'z') ∨ ('A' ≤ c ∧ c ≤ 'Z') ∨ ('0' ≤ c ∧ c ≤ '9') ∨ c = ' '

/-- Python whitespace stripped by str.strip. -/
def isPyWhitespace (c : Char) : Bool :=
  c = ' ' ∨ c = '\t' ∨ c = '\n' ∨ c = '\r' ∨ c = Char.ofNat 11 ∨ c = Char.ofNat 12

/-- Python str.strip. -/
def stripWS (l : List Char) : List Char :=
  ((l.dropWhile isPyWhitespace).reverse.dropWhile isPyWhitespace).reverse

/-- Name cleaning shared by the parser: characters of the tag region
(each byte as the character of its code point), with NUL characters
removed, split on the character 0x0F, each part cleaned to word
characters, then stripped, keeping the nonempty ones. -/
def cleanNames (tagBytes : List Nat) : List (List Char) :=
  let tagChars := (tagBytes.map Char.ofNat).filter (fun c => c ≠ Char.ofNat 0)
  let parts := (splitOnChar (Char.ofNat 15) tagChars).map
    (fun part => part.filter isWordChar)
  (parts.filter (fun n => ¬ n.isEmpty ∧ ¬ (stripWS n).isEmpty)).map stripWS

/-- _parse_datum_template_creator_names from pool_identification.py:
loose hex decoding, skip the height push of 1 + script[0] bytes, read
the tag-region length (re-reading after an OP_PUSHDATA1 byte 0x4C),
slice the region with truncation at the end of the script, and clean
the names; every bound miss returns the empty list. -/
def parse_datum_template_creator_names (coinbase_hex : List Char) :
    List (List Char) :=
  if coinbase_hex.isEmpty then []
  else
    let bytes_arr := hexToBytesLoose coinbase_hex
    match bytes_arr with
    | [] => []
    | b0 :: _ =>
      let i0 := 1 + b0
      if i0 ≥ bytes_arr.length then []
      else
        let t0 := bytes_arr.getD i0 0
        let lenIdx := if t0 = 76 then i0 + 1 else i0
        if t0 = 76 ∧ lenIdx ≥ bytes_arr.length then []
        else
          let tagsLength := if t0 = 76 then bytes_arr.getD lenIdx 0 else t0
          let tagStart := lenIdx + 1
          if tagStart ≥ bytes_arr.length then []
          else
            let tagEnd := min (tagStart + tagsLength) bytes_arr.length
            cleanNames ((bytes_arr.drop tagStart).take (tagEnd - tagStart))

/-- The lowercase marker words excluded from the creator choice. -/
def oceanChars : List Char := ['o', 'c', 'e', 'a', 'n']

def datumChars : List Char := ['d', 'a', 't', 'u', 'm']

/-- The creator chosen in identify_pool_from_data: walking the parsed
names from the last to the first, the first whose lowercased form is
nonempty and contains neither marker word. -/
def datum_template_creator_of (coinbase_hex : List Char) : Option (List Char) :=
  (parse_datum_template_creator_names coinbase_hex).reverse.find?
    (fun candidate =>
      let low := candidate.map Char.toLower
      (¬ low.isEmpty) ∧ (¬ isSubstringOf oceanChars low) ∧ (¬ isSubstringOf datumChars low))

/-- _is_ocean_pool on a match dictionary: name, slug or id lowercases to
the word ocean. -/
def is_ocean_pool (m : PoolMatch) : Bool :=
  lowerString m.name = "ocean" ∨ lowerString m.slug = "ocean" ∨
    lowerString m.id = "ocean"

/-- The OCEAN enrichment applied to a match in identify_pool_from_data:
when the matched pool is OCEAN and a creator name is found, it is
recorded on the match. -/
def enrichOcean (m : PoolMatch) (coinbase_script_hex : List Char) : PoolMatch :=
  if is_ocean_pool m then
    match datum_template_creator_of coinbase_script_hex with
    | some c => { m with datum_template_creator := some c }
    | none => m
  else m

/-- identify_pool_from_data: address match first, then the tag loop,
each enriched with the DATUM creator when the pool is OCEAN; no match
gives the empty dictionary, modelled by none. -/
def identify_pool_from_data (dec : List Nat → List Char)
    (rmatch : List Char → List Char → Bool)
    (pools : List (String × PoolDef)) (coinbase_script_hex : List Char)
    (coinbase_addresses : List String) : Option PoolMatch :=
  match identify_by_address pools coinbase_addresses with
  | some m => some (enrichOcean m coinbase_script_hex)
  | none =>
    match identify_by_tag dec rmatch pools coinbase_script_hex with
    | some m => some (enrichOcean m coinbase_script_hex)
    | none => none

/-! ### Stratum line framing (collector/main.py Watcher.get_msg)

The socket is modelled by the finite list of byte chunks its successive
recv calls return; an exhausted list or an explicit empty chunk is the
peer closing (in the source, EOFError).  json.loads is external to the
repository and is a parameter of the embedding: a parser from a line's
bytes to an optional message value. -/

/-- Outcome of one get_msg call: a decoded message together with the
remaining buffer and the unconsumed chunks, or a lost connection. -/
inductive GetMsgResult (J : Type) where
  | msg : J → List Nat → List (List Nat) → GetMsgResult J
  | connectionLost : GetMsgResult J
  deriving DecidableEq, Repr

/-- Python bytes.split with separator newline and maxsplit 1: the bytes
before the first newline, and the bytes after it when one exists. -/
def splitOnceNL : List Nat → List Nat × Option (List Nat)
  | [] => ([], none)
  | b :: rest =>
    if b = 10 then ([], some rest)
    else
      let p := splitOnceNL rest
      (b :: p.1, p.2)

/-- Watcher.get_msg: split the buffer at the first newline; an empty
first part means more data is needed; otherwise try to parse it as
JSON, returning the message and consuming the line on success, and
reading more data into the buffer (without discarding the line) on
failure.  A recv that returns no bytes, errors, or has no more chunks
to give raises EOFError. -/
def get_msg (parse : List Nat → Option J) :
    List Nat → List (List Nat) → GetMsgResult J
  | buf, [] =>
    let p := splitOnceNL buf
    if p.1 = [] then .connectionLost
    else
      match parse p.1 with
      | some j => .msg j (p.2.getD []) []
      | none => .connectionLost
  | buf, chunk :: rest =>
    let p := splitOnceNL buf
    if p.1 = [] then
      if chunk = [] then .connectionLost
      else get_msg parse (buf ++ chunk) rest
    else
      match parse p.1 with
      | some j => .msg j (p.2.getD []) (chunk :: rest)
      | none =>
        if chunk = [] then .connectionLost
        else get_msg parse (buf ++ chunk) rest

/-! ## Theorems -/

/-! ### Claim C9: injectivity of coinbase reconstruction -/

theorem repeat00_length (n : Nat) : (repeat00 n).length = 2 * n := by
  induction n with
  | zero => rfl
  | succ k ih => simp [repeat00, ih]; omega

/-- C9 counterexample: coinbase reconstruction is not injective in the
four inputs; moving a character from coinbase1 to extranonce1 yields
the same reconstructed hex from a different tuple. -/
theorem claim_C9_counterexample :
    reconstruct_coinbase_raw ['a'] ['b'] 0 ['c'] =
      reconstruct_coinbase_raw ['a', 'b'] [] 0 ['c'] ∧
    (['a'], ['b'], 0, ['c']) ≠ ((['a', 'b'], [], 0, ['c']) :
      List Char × List Char × Nat × List Char) := by
  constructor
  · rfl
  · decide

/-- C9 (amended): coinbase reconstruction is injective in
(coinbase1, extranonce1, extranonce2_length, coinbase2) once the
lengths of the three hex-string components are fixed: two tuples whose
coinbase1, extranonce1 and coinbase2 have pairwise equal lengths and
whose reconstructions coincide are equal. -/
theorem claim_C9_injective_fixed_lengths
    (c1 e1 c2 c1x e1x c2x : List Char) (n nx : Nat)
    (h1 : c1.length = c1x.length) (h2 : e1.length = e1x.length)
    (h3 : c2.length = c2x.length)
    (h : reconstruct_coinbase_raw c1 e1 n c2 =
      reconstruct_coinbase_raw c1x e1x nx c2x) :
    c1 = c1x ∧ e1 = e1x ∧ n = nx ∧ c2 = c2x := by
  have hn : n = nx := by
    have hl := congrArg List.length h
    simp [reconstruct_coinbase_raw, repeat00_length] at hl
    omega
  subst hn
  unfold reconstruct_coinbase_raw at h
  rw [List.append_assoc, List.append_assoc, List.append_assoc,
    List.append_assoc] at h
  obtain ⟨hc1, h⟩ := List.append_inj h h1
  obtain ⟨he1, h⟩ := List.append_inj h h2
  obtain ⟨-, hc2⟩ := List.append_inj h rfl
  exact ⟨hc1, he1, rfl, hc2⟩

/-- C9 witness: the amended injectivity applied at a concrete pair of
equal-length tuples. -/
theorem claim_C9_witness :
    ['a'] = ['a'] ∧ ['b'] = ['b'] ∧ 2 = 2 ∧ ['c'] = (['c'] : List Char) :=
  claim_C9_injective_fixed_lengths ['a'] ['b'] ['c'] ['a'] ['b'] ['c'] 2 2
    rfl rfl rfl rfl

/-! ### Claim C10: totality of the output-value parser -/

/-- C10: the coinbase output-value parser is total with default 0: when
the reconstructed hex fails to deserialize as a transaction the summed
output value is 0, so a template with an empty merkle-branch list whose
reconstruction fails to parse contributes no offender entry and a
height's analysis over it alone emits no flag. -/
theorem claim_C10_parser_total_default_zero
    (s : List Char) (hs : parseTxHex s = none)
    (height : Nat) (t : NotifyTemplate)
    (hm : t.merkle_branches = [])
    (hp : parseTxHex (reconstruct_coinbase_raw t.coinbase1 t.extranonce1
      t.extranonce2_length t.coinbase2) = none) :
    parse_tx_total_output_value_sats s = 0 ∧
    offenderOf (get_block_subsidy_sats height) t = none ∧
    analyze_invalid_coinbase_without_merkle [t] height = none := by
  have htot : ∀ u, parseTxHex u = none → parse_tx_total_output_value_sats u = 0 := by
    intro u hu
    simp [parse_tx_total_output_value_sats, hu]
  have h0 : ¬ ((get_block_subsidy_sats height : Int) < 0) :=
    not_lt.mpr (Int.natCast_nonneg _)
  have hoff : offenderOf (get_block_subsidy_sats height) t = none := by
    simp [offenderOf, hm, htot _ hp, h0]
  refine ⟨htot s hs, hoff, ?_⟩
  simp [analyze_invalid_coinbase_without_merkle, hoff]

/-- C10 witness: the totality theorem applied to a non-hex input string
and to a concrete empty-merkle template whose reconstruction is not a
valid transaction. -/
theorem claim_C10_witness :
    parse_tx_total_output_value_sats ['z', 'z'] = 0 ∧
    offenderOf (get_block_subsidy_sats 840000)
      ⟨"poolA", 0, "j", "p", [], [], [], "v", "nb", "nt", false, [], 0⟩ = none ∧
    analyze_invalid_coinbase_without_merkle
      [⟨"poolA", 0, "j", "p", [], [], [], "v", "nb", "nt", false, [], 0⟩] 840000 = none :=
  claim_C10_parser_total_default_zero ['z', 'z'] (by decide) 840000
    ⟨"poolA", 0, "j", "p", [], [], [], "v", "nb", "nt", false, [], 0⟩
    rfl (by decide)

/-! ### Claim C1: derived height of a NotifyTemplate -/

/-- Concrete C1 input: a legacy coinbase transaction whose input script
is [0x01, 0x07, 0xff, 0xff, 0x00], so the height push length is 1 and
the pushed height is 7. -/
def cxC1coinbase1 : List Char :=
  ("0100000001" ++ String.mk (List.replicate 64 '0') ++ "ffffffff" ++ "05"
    ++ "0107").data

def cxC1extranonce1 : List Char := ("ffff").data

def cxC1coinbase2 : List Char :=
  ("ffffffff01" ++ "00f2052a01000000" ++ "00" ++ "00000000").data

/-- C1 counterexample: the derived height is not the little-endian
integer of bytes 1..1+n of the reconstructed coinbase input script.  On
a script with push length n = 1 pushing the height 7, the code derives
16776967, the little-endian integer of the fixed slice of bytes 1 to 3,
while the claimed rule gives 7. -/
theorem claim_C1_counterexample :
    reconstructed_script cxC1coinbase1 cxC1extranonce1 1 cxC1coinbase2 =
      [1, 7, 255, 255, 0] ∧
    derived_height cxC1coinbase1 cxC1extranonce1 1 cxC1coinbase2 = 16776967 ∧
    spec_height_rule [1, 7, 255, 255, 0] = 7 ∧
    derived_height cxC1coinbase1 cxC1extranonce1 1 cxC1coinbase2 ≠
      spec_height_rule
        (reconstructed_script cxC1coinbase1 cxC1extranonce1 1 cxC1coinbase2) := by
  refine ⟨by decide, by decide, by decide, by decide⟩

/-- C1 (amended): for every mining.notify message turned into a
NotifyTemplate, the derived height is the little-endian integer of the
fixed byte slice 1:4 (bytes 1 to 3) of the reconstructed coinbase input
script, regardless of the push length byte script[0]; this agrees with
the specification's push-length rule exactly when the push length is 3. -/
theorem claim_C1_height_is_fixed_slice
    (p : MiningNotifyParams) (pool_name : String) (extranonce1 : List Char)
    (extranonce2_length : Nat) (tx : Tx) (txin : TxIn) (vinRest : List TxIn)
    (hparse : parseTxHex (reconstruct_coinbase_raw p.coinbase1 extranonce1
      extranonce2_length p.coinbase2) = some tx)
    (hvin : tx.vin = txin :: vinRest) :
    (create_notification_document p pool_name extranonce1
      extranonce2_length).height = leNat ((txin.script.drop 1).take 3) ∧
    (txin.script.head? = some 3 →
      (create_notification_document p pool_name extranonce1
        extranonce2_length).height = spec_height_rule txin.script) := by
  have hh : (create_notification_document p pool_name extranonce1
      extranonce2_length).height = leNat ((txin.script.drop 1).take 3) := by
    simp [create_notification_document, derived_height, hparse, hvin]
  refine ⟨hh, fun hhead => ?_⟩
  rcases hs : txin.script with - | ⟨b, restS⟩
  · rw [hs] at hhead; simp at hhead
  · rw [hs] at hhead
    simp at hhead
    subst hhead
    rw [hh, hs]
    simp [spec_height_rule]

/-- Concrete witness input for C1: a legacy coinbase transaction whose
input script is [0x03, 0x11, 0x22, 0x33, 0x00], a push length of 3. -/
def wxC1coinbase1 : List Char :=
  ("0100000001" ++ String.mk (List.replicate 64 '0') ++ "ffffffff" ++ "05"
    ++ "0311").data

def wxC1coinbase2 : List Char :=
  ("ffffffff01" ++ "00f2052a01000000" ++ "00" ++ "00000000").data

def wxC1params : MiningNotifyParams :=
  ⟨"job", "prev", wxC1coinbase1, wxC1coinbase2, [], "20000000", "nb", "nt", true⟩

def wxC1tx : Tx :=
  ⟨1, [⟨List.replicate 32 0, 4294967295, [3, 17, 34, 51, 0], 4294967295⟩],
    [⟨5000000000, []⟩], 0⟩

/-- C1 witness: the amended height theorem applied to a concrete
template whose height push length is 3. -/
theorem claim_C1_witness :
    (create_notification_document wxC1params "pool" ("2233").data 1).height =
      leNat (([3, 17, 34, 51, 0].drop 1).take 3) ∧
    (([3, 17, 34, 51, 0] : List Nat).head? = some 3 →
      (create_notification_document wxC1params "pool" ("2233").data 1).height =
        spec_height_rule [3, 17, 34, 51, 0]) :=
  claim_C1_height_is_fixed_slice wxC1params "pool" ("2233").data 1 wxC1tx
    ⟨List.replicate 32 0, 4294967295, [3, 17, 34, 51, 0], 4294967295⟩ []
    (by decide) rfl

/-! ### Claim C4: the invalid-coinbase-without-merkle analysis -/

/-- The summed output value of a template's reconstructed coinbase, as
computed inside analyze_invalid_coinbase_without_merkle. -/
def templateTotal (t : NotifyTemplate) : Int :=
  parse_tx_total_output_value_sats (reconstruct_coinbase_raw t.coinbase1
    t.extranonce1 t.extranonce2_length t.coinbase2)

theorem offenderOf_eq_some (s : Int) (t : NotifyTemplate) (o : Offender) :
    offenderOf s t = some o ↔
      t.merkle_branches = [] ∧ s < templateTotal t ∧
        o = ⟨t.pool_name, templateTotal t, s⟩ := by
  unfold offenderOf templateTotal
  by_cases hm : t.merkle_branches = []
  · simp only [hm, if_pos rfl]
    by_cases hlt : s < parse_tx_total_output_value_sats
        (reconstruct_coinbase_raw t.coinbase1 t.extranonce1
          t.extranonce2_length t.coinbase2)
    · simp [hlt, eq_comm]
    · simp [hlt]
  · simp [hm]

/-- C4: the analysis flags a height exactly when some template with an
empty merkle-branch list reconstructs to a coinbase whose output sum
strictly exceeds the block subsidy; templates with nonempty branches
never contribute an offender, every offender entry records the pool
name, total and subsidy of such a template, and every such template is
recorded. -/
theorem claim_C4_invalid_coinbase_iff (templates : List NotifyTemplate)
    (height : Nat) :
    ((analyze_invalid_coinbase_without_merkle templates height).isSome ↔
      ∃ t ∈ templates, t.merkle_branches = [] ∧
        (get_block_subsidy_sats height : Int) < templateTotal t) ∧
    (∀ f, analyze_invalid_coinbase_without_merkle templates height = some f →
      f.key = "invalid_coinbase_no_merkle" ∧
      (∀ o ∈ f.offenders, ∃ t ∈ templates, t.merkle_branches = [] ∧
        o = ⟨t.pool_name, templateTotal t, (get_block_subsidy_sats height : Int)⟩ ∧
        o.subsidy_sats < o.total_sats) ∧
      (∀ t ∈ templates, t.merkle_branches = [] →
        (get_block_subsidy_sats height : Int) < templateTotal t →
        (⟨t.pool_name, templateTotal t, (get_block_subsidy_sats height : Int)⟩ :
          Offender) ∈ f.offenders)) := by
  have hmem : ∀ o, o ∈ templates.filterMap
      (offenderOf (get_block_subsidy_sats height : Int)) ↔
      ∃ t ∈ templates, t.merkle_branches = [] ∧
        (get_block_subsidy_sats height : Int) < templateTotal t ∧
        o = ⟨t.pool_name, templateTotal t, (get_block_subsidy_sats height : Int)⟩ := by
    intro o
    rw [List.mem_filterMap]
    constructor
    · rintro ⟨t, ht, hsome⟩
      rw [offenderOf_eq_some] at hsome
      exact ⟨t, ht, hsome.1, hsome.2.1, hsome.2.2⟩
    · rintro ⟨t, ht, h1, h2, h3⟩
      exact ⟨t, ht, (offenderOf_eq_some _ _ _).mpr ⟨h1, h2, h3⟩⟩
  constructor
  · simp only [analyze_invalid_coinbase_without_merkle]
    by_cases hnil : templates.filterMap
        (offenderOf (get_block_subsidy_sats height : Int)) = []
    · rw [if_pos hnil]
      simp only [Option.isSome_none, Bool.false_eq_true, false_iff]
      rintro ⟨t, ht, hm, hlt⟩
      have hx : (⟨t.pool_name, templateTotal t,
          (get_block_subsidy_sats height : Int)⟩ : Offender) ∈
          templates.filterMap (offenderOf (get_block_subsidy_sats height : Int)) :=
        (hmem _).mpr ⟨t, ht, hm, hlt, rfl⟩
      rw [hnil] at hx
      exact absurd hx (List.not_mem_nil _)
    · rw [if_neg hnil]
      simp only [Option.isSome_some, true_iff]
      obtain ⟨o, ho⟩ := List.exists_mem_of_ne_nil _ hnil
      obtain ⟨t, ht, hm, hlt, -⟩ := (hmem o).mp ho
      exact ⟨t, ht, hm, hlt⟩
  · intro f hf
    simp only [analyze_invalid_coinbase_without_merkle] at hf
    by_cases hnil : templates.filterMap
        (offenderOf (get_block_subsidy_sats height : Int)) = []
    · rw [if_pos hnil] at hf
      exact absurd hf (by simp)
    · rw [if_neg hnil] at hf
      rw [Option.some.injEq] at hf
      subst hf
      refine ⟨rfl, ?_, ?_⟩
      · intro o ho
        obtain ⟨t, ht, hm, hlt, heq⟩ := (hmem o).mp ho
        refine ⟨t, ht, hm, heq, ?_⟩
        rw [heq]
        exact hlt
      · intro t ht hm hlt
        exact (hmem _).mpr ⟨t, ht, hm, hlt, rfl⟩

/-! ### Claim C5: the prev-hash divergence analysis -/

/-- First-match lookup in the insertion-ordered grouping list. -/
def lookupG (l : List (String × List String)) (k : String) : Option (List String) :=
  (l.find? (fun g => g.1 == k)).map (fun g => g.2)

/-- The keys of the grouping list, in insertion order. -/
def keysG (l : List (String × List String)) : List String :=
  l.map (fun g => g.1)

/-- The pools of the templates whose lowercased prev_hash is k, in
template order. -/
def poolsOf (k : String) (ts : List NotifyTemplate) : List String :=
  ts.filterMap (fun t =>
    if lowerString t.prev_hash = k then some t.pool_name else none)

/-- Append new values onto an optional existing group. -/
def optionAppend (o : Option (List String)) (ps : List String) :
    Option (List String) :=
  match o with
  | some vs => some (vs ++ ps)
  | none => if ps = [] then none else some ps

theorem lookupG_addToGroup_self (acc : List (String × List String))
    (k v : String) :
    lookupG (addToGroup acc k v) k = some ((lookupG acc k).getD [] ++ [v]) := by
  induction acc with
  | nil => simp [addToGroup, lookupG]
  | cons g rest ih =>
    obtain ⟨k1, vs⟩ := g
    by_cases hk : k1 = k
    · subst hk
      simp [addToGroup, lookupG]
    · simp only [addToGroup, if_neg hk]
      simp only [lookupG, List.find?] at ih ⊢
      have hbeq : (k1 == k) = false := by
        simp [hk]
      rw [hbeq]
      simpa [lookupG] using ih

theorem lookupG_addToGroup_other (acc : List (String × List String))
    (k v kx : String) (hne : kx ≠ k) :
    lookupG (addToGroup acc k v) kx = lookupG acc kx := by
  have hbeq : (k == kx) = false := by
    simp only [beq_eq_false_iff_ne, ne_eq]
    exact fun h => hne h.symm
  induction acc with
  | nil =>
    simp [addToGroup, lookupG, List.find?, hbeq]
  | cons g rest ih =>
    obtain ⟨k1, vs⟩ := g
    by_cases hk : k1 = k
    · subst hk
      simp only [addToGroup, if_pos rfl]
      simp [lookupG, List.find?, hbeq]
    · simp only [addToGroup, if_neg hk]
      simp only [lookupG, List.find?] at ih ⊢
      by_cases hx : k1 = kx
      · subst hx
        simp
      · have hbeq2 : (k1 == kx) = false := by simp [hx]
        rw [hbeq2]
        exact ih

theorem keysG_addToGroup (acc : List (String × List String)) (k v : String) :
    keysG (addToGroup acc k v) =
      if k ∈ keysG acc then keysG acc else keysG acc ++ [k] := by
  induction acc with
  | nil => simp [addToGroup, keysG]
  | cons g rest ih =>
    obtain ⟨k1, vs⟩ := g
    by_cases hk : k1 = k
    · subst hk
      simp [addToGroup, keysG]
    · simp only [addToGroup, if_neg hk, keysG, List.map_cons] at ih ⊢
      rw [ih]
      by_cases hmem : k ∈ keysG rest
      · simp only [keysG] at hmem
        rw [if_pos hmem, if_pos (List.mem_cons_of_mem _ hmem)]
      · simp only [keysG] at hmem
        rw [if_neg hmem, if_neg]
        · simp
        · intro hcon
          rcases List.mem_cons.mp hcon with h1 | h2
          · exact hk h1.symm
          · exact hmem h2

theorem keysG_groupPrevHash (ts : List NotifyTemplate) :
    ∀ acc k, k ∈ keysG (groupPrevHash ts acc) ↔
      k ∈ keysG acc ∨ (k ≠ "" ∧ ∃ t ∈ ts, lowerString t.prev_hash = k) := by
  induction ts with
  | nil => intro acc k; simp [groupPrevHash]
  | cons t rest ih =>
    intro acc k
    simp only [groupPrevHash]
    by_cases hp : lowerString t.prev_hash = ""
    · rw [if_pos hp, ih]
      constructor
      · rintro (h | ⟨hk, t2, ht2, hlow⟩)
        · exact Or.inl h
        · exact Or.inr ⟨hk, t2, List.mem_cons_of_mem _ ht2, hlow⟩
      · rintro (h | ⟨hk, t2, ht2, hlow⟩)
        · exact Or.inl h
        · rcases List.mem_cons.mp ht2 with h1 | h2
          · subst h1
            exact absurd hp (hlow ▸ hk)
          · exact Or.inr ⟨hk, t2, h2, hlow⟩
    · rw [if_neg hp, ih]
      have hkeys := keysG_addToGroup acc (lowerString t.prev_hash) t.pool_name
      constructor
      · rintro (h | ⟨hk, t2, ht2, hlow⟩)
        · rw [hkeys] at h
          by_cases hmem : lowerString t.prev_hash ∈ keysG acc
          · rw [if_pos hmem] at h
            exact Or.inl h
          · rw [if_neg hmem] at h
            rcases List.mem_append.mp h with h1 | h2
            · exact Or.inl h1
            · have : k = lowerString t.prev_hash := List.mem_singleton.mp h2
              subst this
              exact Or.inr ⟨hp, t, List.mem_cons_self _ _, rfl⟩
        · exact Or.inr ⟨hk, t2, List.mem_cons_of_mem _ ht2, hlow⟩
      · rintro (h | ⟨hk, t2, ht2, hlow⟩)
        · left
          rw [hkeys]
          by_cases hmem : lowerString t.prev_hash ∈ keysG acc
          · rw [if_pos hmem]; exact h
          · rw [if_neg hmem]; exact List.mem_append.mpr (Or.inl h)
        · rcases List.mem_cons.mp ht2 with h1 | h2
          · subst h1
            left
            rw [hkeys]
            by_cases hmem : lowerString t2.prev_hash ∈ keysG acc
            · rw [if_pos hmem]; rw [hlow] at hmem; exact hlow ▸ hmem
            · rw [if_neg hmem]
              exact List.mem_append.mpr (Or.inr (List.mem_singleton.mpr hlow.symm))
          · exact Or.inr ⟨hk, t2, h2, hlow⟩

theorem charListLe_total : ∀ a b : List Char,
    charListLe a b = true ∨ charListLe b a = true
  | [], b => Or.inl (by cases b <;> rfl)
  | a :: as, [] => Or.inr rfl
  | a :: as, b :: bs => by
    rcases Nat.lt_trichotomy a.toNat b.toNat with h | h | h
    · left
      simp [charListLe, h]
    · rcases charListLe_total as bs with h2 | h2
      · left
        simp [charListLe, h, Nat.lt_irrefl, h2]
      · right
        simp [charListLe, h, Nat.lt_irrefl, h2]
    · right
      simp [charListLe, h]

theorem charListLe_trans : ∀ a b c : List Char,
    charListLe a b = true → charListLe b c = true → charListLe a c = true
  | [], b, c, _, _ => by cases c <;> rfl
  | a :: as, [], c, hab, _ => by simp [charListLe] at hab
  | a :: as, b :: bs, [], _, hbc => by simp [charListLe] at hbc
  | a :: as, b :: bs, c :: cs, hab, hbc => by
    rcases Nat.lt_trichotomy a.toNat b.toNat with h1 | h1 | h1
    · rcases Nat.lt_trichotomy b.toNat c.toNat with h2 | h2 | h2
      · simp [charListLe, Nat.lt_trans h1 h2]
      · simp [charListLe, h2 ▸ h1]
      · simp [charListLe, h2, Nat.lt_asymm h2] at hbc
    · rcases Nat.lt_trichotomy b.toNat c.toNat with h2 | h2 | h2
      · simp [charListLe, h1 ▸ h2]
      · have h3 : a.toNat = c.toNat := h1.trans h2
        simp [charListLe, h1, Nat.lt_irrefl] at hab
        simp [charListLe, h2, Nat.lt_irrefl] at hbc
        simp [charListLe, h3, Nat.lt_irrefl]
        exact charListLe_trans as bs cs hab hbc
      · simp [charListLe, h2, Nat.lt_asymm h2] at hbc
    · simp [charListLe, h1, Nat.lt_asymm h1] at hab

instance : IsTotal String strLeP :=
  ⟨fun a b => charListLe_total a.data b.data⟩

instance : IsTrans String strLeP :=
  ⟨fun a b c => charListLe_trans a.data b.data c.data⟩

theorem sortedUnique_sorted (v : List String) :
    (sortedUnique v).Sorted strLeP :=
  List.sorted_insertionSort _ _

theorem sortedUnique_nodup (v : List String) : (sortedUnique v).Nodup :=
  ((List.perm_insertionSort _ _).nodup_iff).mpr (List.nodup_dedup v)

theorem sortedUnique_mem (v : List String) (p : String) :
    p ∈ sortedUnique v ↔ p ∈ v :=
  ((List.perm_insertionSort _ _).mem_iff).trans (List.mem_dedup)

theorem optionAppend_nil (o : Option (List String)) : optionAppend o [] = o := by
  cases o <;> simp [optionAppend]

theorem optionAppend_snoc (o : Option (List String)) (p : String)
    (ps : List String) :
    optionAppend (some (o.getD [] ++ [p])) ps = optionAppend o (p :: ps) := by
  cases o <;> simp [optionAppend]

theorem poolsOf_cons (k : String) (t : NotifyTemplate)
    (ts : List NotifyTemplate) :
    poolsOf k (t :: ts) =
      if lowerString t.prev_hash = k then t.pool_name :: poolsOf k ts
      else poolsOf k ts := by
  by_cases h : lowerString t.prev_hash = k
  · simp [poolsOf, List.filterMap_cons, h]
  · simp [poolsOf, List.filterMap_cons, h]

theorem lookupG_groupPrevHash (ts : List NotifyTemplate) :
    ∀ acc k, k ≠ "" →
      lookupG (groupPrevHash ts acc) k =
        optionAppend (lookupG acc k) (poolsOf k ts) := by
  induction ts with
  | nil =>
    intro acc k _
    simp [groupPrevHash, poolsOf, optionAppend_nil]
  | cons t rest ih =>
    intro acc k hk
    simp only [groupPrevHash]
    by_cases hp : lowerString t.prev_hash = ""
    · rw [if_pos hp, ih _ _ hk, poolsOf_cons, if_neg]
      intro hcon
      exact hk (hcon ▸ hp)
    · rw [if_neg hp, ih _ _ hk, poolsOf_cons]
      by_cases hpk : lowerString t.prev_hash = k
      · rw [if_pos hpk, hpk, lookupG_addToGroup_self, optionAppend_snoc]
      · rw [if_neg hpk, lookupG_addToGroup_other]
        intro hcon
        exact hpk hcon.symm

theorem keysG_nodup_addToGroup (acc : List (String × List String))
    (k v : String) (h : (keysG acc).Nodup) :
    (keysG (addToGroup acc k v)).Nodup := by
  rw [keysG_addToGroup]
  by_cases hmem : k ∈ keysG acc
  · rw [if_pos hmem]; exact h
  · rw [if_neg hmem, List.nodup_append]
    exact ⟨h, List.nodup_singleton _,
      fun a ha hak => hmem ((List.mem_singleton.mp hak) ▸ ha)⟩

theorem keysG_nodup_groupPrevHash (ts : List NotifyTemplate) :
    ∀ acc, (keysG acc).Nodup → (keysG (groupPrevHash ts acc)).Nodup := by
  induction ts with
  | nil => intro acc h; exact h
  | cons t rest ih =>
    intro acc h
    simp only [groupPrevHash]
    by_cases hp : lowerString t.prev_hash = ""
    · rw [if_pos hp]; exact ih _ h
    · rw [if_neg hp]
      exact ih _ (keysG_nodup_addToGroup _ _ _ h)

theorem mem_iff_lookupG (l : List (String × List String)) (k : String)
    (vs : List String) (h : (keysG l).Nodup) :
    (k, vs) ∈ l ↔ lookupG l k = some vs := by
  induction l with
  | nil => simp [lookupG]
  | cons g rest ih =>
    obtain ⟨k1, vs1⟩ := g
    simp only [keysG, List.map_cons, List.nodup_cons] at h
    by_cases hk : k1 = k
    · subst hk
      simp only [lookupG, List.find?, beq_self_eq_true, Option.map_some]
      constructor
      · intro hmem
        rcases List.mem_cons.mp hmem with h1 | h2
        · rw [Prod.mk.injEq] at h1
          simp [h1.2]
        · exact absurd (List.mem_map_of_mem (fun g => g.1) h2) (by
            simpa [keysG] using h.1)
      · intro hsome
        have hvs : vs1 = vs := by simpa using hsome
        subst hvs
        exact List.mem_cons_self _ _
    · have hbeq : (k1 == k) = false := by simp [hk]
      simp only [lookupG, List.find?, hbeq]
      rw [← lookupG]
      rw [List.mem_cons, ih (h.2)]
      constructor
      · rintro (h1 | h2)
        · rw [Prod.mk.injEq] at h1
          exact absurd h1.1.symm hk
        · exact h2
      · exact Or.inr

theorem mem_poolsOf (k p : String) (ts : List NotifyTemplate) :
    p ∈ poolsOf k ts ↔
      ∃ t ∈ ts, lowerString t.prev_hash = k ∧ t.pool_name = p := by
  simp only [poolsOf, List.mem_filterMap]
  constructor
  · rintro ⟨t, ht, hsome⟩
    by_cases hpk : lowerString t.prev_hash = k
    · rw [if_pos hpk, Option.some.injEq] at hsome
      exact ⟨t, ht, hpk, hsome⟩
    · rw [if_neg hpk] at hsome
      exact absurd hsome (by simp)
  · rintro ⟨t, ht, hpk, hname⟩
    exact ⟨t, ht, by rw [if_pos hpk, hname]⟩

theorem two_mem_one_lt_length {α : Type} {a b : α} {l : List α}
    (ha : a ∈ l) (hb : b ∈ l) (hne : a ≠ b) : 1 < l.length := by
  match l with
  | [] => exact absurd ha (List.not_mem_nil _)
  | [x] =>
    rw [List.mem_singleton] at ha hb
    exact absurd (ha.trans hb.symm) hne
  | x :: y :: rest => simp

/-- C5: the prev-hash divergence analysis emits its flag exactly when
two templates carry different nonempty lowercased prev hashes; every
group of the flag is keyed by a nonempty lowercased prev hash, lists
exactly the pool names observed with that prev hash, sorted and without
duplicates, and every observed nonempty prev hash has a group. -/
theorem claim_C5_prev_hash_fork (ts : List NotifyTemplate) :
    ((analyze_prev_hash_divergence ts).isSome ↔
      ∃ t1 ∈ ts, ∃ t2 ∈ ts, lowerString t1.prev_hash ≠ "" ∧
        lowerString t2.prev_hash ≠ "" ∧
        lowerString t1.prev_hash ≠ lowerString t2.prev_hash) ∧
    (∀ f, analyze_prev_hash_divergence ts = some f →
      f.key = "prev_hash_fork" ∧
      (∀ g ∈ f.groups, g.1 ≠ "" ∧ g.2.Sorted strLeP ∧ g.2.Nodup ∧
        (∀ p, p ∈ g.2 ↔
          ∃ t ∈ ts, lowerString t.prev_hash = g.1 ∧ t.pool_name = p)) ∧
      (∀ k, k ≠ "" →
        ((∃ t ∈ ts, lowerString t.prev_hash = k) ↔ ∃ ws, (k, ws) ∈ f.groups))) := by
  have hkeys : ∀ k, k ∈ keysG (groupPrevHash ts []) ↔
      (k ≠ "" ∧ ∃ t ∈ ts, lowerString t.prev_hash = k) := by
    intro k
    rw [keysG_groupPrevHash]
    simp [keysG]
  have hnodup : (keysG (groupPrevHash ts [])).Nodup :=
    keysG_nodup_groupPrevHash ts [] (by simp [keysG])
  have hlook : ∀ k, k ≠ "" →
      lookupG (groupPrevHash ts []) k =
        optionAppend none (poolsOf k ts) := by
    intro k hk
    rw [lookupG_groupPrevHash ts [] k hk]
    rfl
  constructor
  · simp only [analyze_prev_hash_divergence]
    by_cases hlen : (groupPrevHash ts []).length ≤ 1
    · rw [if_pos hlen]
      simp only [Option.isSome_none, Bool.false_eq_true, false_iff]
      rintro ⟨t1, ht1, t2, ht2, hk1, hk2, hne⟩
      have hm1 : lowerString t1.prev_hash ∈ keysG (groupPrevHash ts []) :=
        (hkeys _).mpr ⟨hk1, t1, ht1, rfl⟩
      have hm2 : lowerString t2.prev_hash ∈ keysG (groupPrevHash ts []) :=
        (hkeys _).mpr ⟨hk2, t2, ht2, rfl⟩
      have := two_mem_one_lt_length hm1 hm2 hne
      simp only [keysG, List.length_map] at this
      omega
    · rw [if_neg hlen]
      simp only [Option.isSome_some, true_iff]
      match hg : groupPrevHash ts [] with
      | [] => rw [hg] at hlen; simp at hlen
      | [g] => rw [hg] at hlen; simp at hlen
      | g1 :: g2 :: grest =>
        have hm1 : g1.1 ∈ keysG (groupPrevHash ts []) := by
          rw [hg]; simp [keysG]
        have hm2 : g2.1 ∈ keysG (groupPrevHash ts []) := by
          rw [hg]; simp [keysG]
        have hne : g1.1 ≠ g2.1 := by
          have := hnodup
          rw [hg] at this
          simp only [keysG, List.map_cons, List.nodup_cons] at this
          intro hcon
          exact this.1 (by rw [hcon]; simp)
        obtain ⟨hk1, t1, ht1, hl1⟩ := (hkeys _).mp hm1
        obtain ⟨hk2, t2, ht2, hl2⟩ := (hkeys _).mp hm2
        exact ⟨t1, ht1, t2, ht2, by rw [hl1]; exact hk1,
          by rw [hl2]; exact hk2, by rw [hl1, hl2]; exact hne⟩
  · intro f hf
    simp only [analyze_prev_hash_divergence] at hf
    by_cases hlen : (groupPrevHash ts []).length ≤ 1
    · rw [if_pos hlen] at hf
      exact absurd hf (by simp)
    · rw [if_neg hlen, Option.some.injEq] at hf
      subst hf
      refine ⟨rfl, ?_, ?_⟩
      · rintro ⟨k, ws⟩ hmem
        simp only [List.mem_map] at hmem
        obtain ⟨⟨k0, vs⟩, hvs, heq⟩ := hmem
        rw [Prod.mk.injEq] at heq
        obtain ⟨hkeq, hws⟩ := heq
        subst hkeq
        have hkmem : k0 ∈ keysG (groupPrevHash ts []) :=
          List.mem_map_of_mem (fun g => g.1) hvs
        obtain ⟨hk, -⟩ := (hkeys _).mp hkmem
        have hlookup : lookupG (groupPrevHash ts []) k0 = some vs :=
          (mem_iff_lookupG _ _ _ hnodup).mp hvs
        rw [hlook k0 hk] at hlookup
        have hvs_eq : vs = poolsOf k0 ts := by
          by_cases hnil : poolsOf k0 ts = []
          · rw [hnil] at hlookup
            simp [optionAppend] at hlookup
          · simp only [optionAppend, if_neg hnil] at hlookup
            exact (Option.some.injEq _ _ ▸ hlookup).symm
        refine ⟨hk, ?_, ?_, ?_⟩
        · rw [← hws]; exact sortedUnique_sorted vs
        · rw [← hws]; exact sortedUnique_nodup vs
        · intro p
          rw [← hws, sortedUnique_mem, hvs_eq, mem_poolsOf]
      · intro k hk
        constructor
        · rintro ⟨t, ht, hlow⟩
          have hkmem : k ∈ keysG (groupPrevHash ts []) :=
            (hkeys _).mpr ⟨hk, t, ht, hlow⟩
          simp only [keysG, List.mem_map] at hkmem
          obtain ⟨⟨k0, vs⟩, hvs, hkeq⟩ := hkmem
          subst hkeq
          exact ⟨sortedUnique vs, List.mem_map_of_mem _ hvs⟩
        · rintro ⟨ws, hmem⟩
          simp only [List.mem_map] at hmem
          obtain ⟨⟨k0, vs⟩, hvs, heq⟩ := hmem
          rw [Prod.mk.injEq] at heq
          obtain ⟨hkeq, -⟩ := heq
          subst hkeq
          have hkmem : k0 ∈ keysG (groupPrevHash ts []) :=
            List.mem_map_of_mem (fun g => g.1) hvs
          obtain ⟨-, t, ht, hlow⟩ := (hkeys _).mp hkmem
          exact ⟨t, ht, hlow⟩

/-! ### Claim C3: coinbase address extraction from a block -/

/-- Concrete C3 block: the coinbase pays the same address in two
outputs, so the collected address list contains it twice. -/
def cxC3block : CoinbaseTx :=
  ⟨[⟨some "7369", none⟩],
   [⟨⟨none, some "addr1", none⟩, 1⟩, ⟨⟨none, some "addr1", none⟩, 2⟩]⟩

/-- C3 counterexample: the extracted coinbase address list is not
deduplicated; an address paid by two vouts appears twice in the
result. -/
theorem claim_C3_counterexample :
    extract_coinbase_data cxC3block = some ("7369", ["addr1", "addr1"]) ∧
    ¬ (["addr1", "addr1"] : List String).Nodup := by
  constructor
  · simp [extract_coinbase_data, cxC3block, collectedAddresses, voutAddresses,
      List.insertionSort, List.orderedInsert, le_refl]
  · decide

/-- C3 (amended): the extracted coinbase address list is the full
occurrence list of the vout addresses (one entry per paying vout, not
deduplicated), stably sorted by descending cumulative output value:
the result is a permutation of the occurrences, is sorted by descending
cumulative value, and value ties keep their first-appearance order. -/
theorem claim_C3_sorted_with_multiplicity (tx : CoinbaseTx) (sig : String)
    (addrs : List String)
    (h : extract_coinbase_data tx = some (sig, addrs)) :
    addrs.Perm (collectedAddresses tx.vout) ∧
    addrs.Sorted (fun a b => addressValue tx.vout b ≤ addressValue tx.vout a) ∧
    (∀ a b : String, addressValue tx.vout a = addressValue tx.vout b →
      List.Sublist [a, b] (collectedAddresses tx.vout) →
      List.Sublist [a, b] addrs) := by
  have haddrs : addrs = List.insertionSort
      (fun a b => addressValue tx.vout b ≤ addressValue tx.vout a)
      (collectedAddresses tx.vout) := by
    rcases tx with ⟨vin, vout⟩
    match vin with
    | [] => simp [extract_coinbase_data] at h
    | vin0 :: vinRest =>
      rcases hs : vin0.scriptSigHex with - | sighex
      · rcases hc : vin0.coinbase with - | cb
        · simp [extract_coinbase_data, hs, hc] at h
        · simp only [extract_coinbase_data, hs, hc, Option.some.injEq,
            Prod.mk.injEq] at h
          exact h.2.symm
      · simp only [extract_coinbase_data, hs, Option.some.injEq,
          Prod.mk.injEq] at h
        exact h.2.symm
  haveI : IsTotal String
      (fun a b => addressValue tx.vout b ≤ addressValue tx.vout a) :=
    ⟨fun a b => le_total _ _⟩
  haveI : IsTrans String
      (fun a b => addressValue tx.vout b ≤ addressValue tx.vout a) :=
    ⟨fun a b c h1 h2 => le_trans h2 h1⟩
  subst haddrs
  refine ⟨List.perm_insertionSort _ _, List.sorted_insertionSort _ _, ?_⟩
  intro a b heq hpair
  exact List.pair_sublist_insertionSort (le_of_eq heq.symm) hpair

/-- Concrete C3 witness block: one vout, one address. -/
def wxC3block : CoinbaseTx :=
  ⟨[⟨some "7369", none⟩], [⟨⟨none, some "addr1", none⟩, 1⟩]⟩

/-- C3 witness: the amended sortedness theorem applied to the concrete
single-output block. -/
theorem claim_C3_witness :
    (["addr1"] : List String).Perm (collectedAddresses wxC3block.vout) ∧
    (["addr1"] : List String).Sorted
      (fun a b => addressValue wxC3block.vout b ≤ addressValue wxC3block.vout a) ∧
    (∀ a b : String,
      addressValue wxC3block.vout a = addressValue wxC3block.vout b →
      List.Sublist [a, b] (collectedAddresses wxC3block.vout) →
      List.Sublist [a, b] ["addr1"]) :=
  claim_C3_sorted_with_multiplicity wxC3block "7369" ["addr1"]
    (by simp [extract_coinbase_data, wxC3block, collectedAddresses,
      voutAddresses, List.insertionSort, List.orderedInsert])

/-! ### Claim C2: pool identification priority -/

theorem enrichOcean_method (m : PoolMatch) (hex : List Char) :
    (enrichOcean m hex).identification_method = m.identification_method := by
  unfold enrichOcean
  by_cases ho : is_ocean_pool m
  · rw [if_pos ho]
    cases datum_template_creator_of hex <;> rfl
  · rw [if_neg ho]

theorem enrichOcean_id (m : PoolMatch) (hex : List Char) :
    (enrichOcean m hex).id = m.id := by
  unfold enrichOcean
  by_cases ho : is_ocean_pool m
  · rw [if_pos ho]
    cases datum_template_creator_of hex <;> rfl
  · rw [if_neg ho]

theorem identify_by_address_go_method (addrs : List String) :
    ∀ pools m, identify_by_address_go addrs pools = some m →
      m.identification_method = "address" := by
  intro pools
  induction pools with
  | nil => intro m h; simp [identify_by_address_go] at h
  | cons pr rest ih =>
    intro m h
    obtain ⟨pid, p⟩ := pr
    simp only [identify_by_address_go] at h
    by_cases hc : addrs.any (fun a => p.addresses.contains a) = true
    · rw [if_pos hc, Option.some.injEq] at h
      rw [← h]
      rfl
    · rw [if_neg hc] at h
      exact ih m h

theorem identify_by_address_some_of_ex (pools : List (String × PoolDef))
    (addrs : List String)
    (hex2 : ∃ pr ∈ pools, ∃ a ∈ addrs, a ∈ pr.2.addresses) :
    ∃ m, identify_by_address pools addrs = some m := by
  obtain ⟨pr0, hpr0, a0, ha0, haddr0⟩ := hex2
  have hne : addrs.isEmpty = false := by
    cases addrs
    · exact absurd ha0 (List.not_mem_nil _)
    · rfl
  unfold identify_by_address
  rw [hne]
  simp only [Bool.false_eq_true, if_false]
  clear hne
  induction pools with
  | nil => exact absurd hpr0 (List.not_mem_nil _)
  | cons pr rest ih =>
    obtain ⟨pid, p⟩ := pr
    simp only [identify_by_address_go]
    by_cases hc : addrs.any (fun a => p.addresses.contains a) = true
    · rw [if_pos hc]
      exact ⟨_, rfl⟩
    · rw [if_neg hc]
      rcases List.mem_cons.mp hpr0 with h1 | h2
      · exfalso
        apply hc
        rw [List.any_eq_true]
        refine ⟨a0, ha0, ?_⟩
        rw [h1] at haddr0
        exact List.elem_iff.mpr haddr0
      · exact ih h2

theorem identify_by_tag_go_first_match
    (rmatch : List Char → List Char → Bool) (text : List Char)
    (pid : String) (p : PoolDef) :
    ∀ pre post,
      (p.tags.any (fun tag => isSubstringOf tag text) = true ∨
        p.regexes.any (fun pat => rmatch pat text) = true) →
      (∀ q ∈ pre, q.2.tags.any (fun tag => isSubstringOf tag text) = false ∧
        q.2.regexes.any (fun pat => rmatch pat text) = false) →
      identify_by_tag_go rmatch text (pre ++ (pid, p) :: post) =
        some (mkPoolMatch pid p "tag") := by
  intro pre
  induction pre with
  | nil =>
    intro post hmatch _
    simp only [List.nil_append, identify_by_tag_go]
    rcases hmatch with h | h
    · rw [if_pos h]
    · by_cases ht : p.tags.any (fun tag => isSubstringOf tag text) = true
      · rw [if_pos ht]
      · rw [if_neg ht, if_pos h]
  | cons q pre ih =>
    intro post hmatch hpre
    obtain ⟨qid, qp⟩ := q
    obtain ⟨hqt, hqr⟩ := hpre (qid, qp) (List.mem_cons_self _ _)
    simp only [List.cons_append, identify_by_tag_go]
    rw [if_neg (by simp [hqt]), if_neg (by simp [hqr])]
    exact ih post hmatch
      (fun q hq => hpre q (List.mem_cons_of_mem _ hq))

/-- C2 (amended): pool identification gives strict priority to address
matches over the tag loop, but within the tag loop the pools are
scanned in rule-set iteration order with each pool's literal tags
checked just before its regexes: any address match anywhere yields an
address-method result, and when no address matches, the first pool in
iteration order with a literal-tag or regex match wins — so a regex
match of an earlier pool beats a literal tag of a later pool.  Ties
within a tier resolve by iteration order.  This holds for every
byte-to-text decoder and regex matcher. -/
theorem claim_C2_priority (dec : List Nat → List Char)
    (rmatch : List Char → List Char → Bool)
    (pools : List (String × PoolDef)) (hex : List Char) (addrs : List String) :
    ((∃ pr ∈ pools, ∃ a ∈ addrs, a ∈ pr.2.addresses) →
      ∃ m, identify_pool_from_data dec rmatch pools hex addrs = some m ∧
        m.identification_method = "address") ∧
    (identify_by_address pools addrs = none →
      ∀ pre pid p post, pools = pre ++ (pid, p) :: post →
      ∀ text, decode_coinbase_text dec hex = some text →
      hex.isEmpty = false →
      (p.tags.any (fun tag => isSubstringOf tag text) = true ∨
        p.regexes.any (fun pat => rmatch pat text) = true) →
      (∀ q ∈ pre, q.2.tags.any (fun tag => isSubstringOf tag text) = false ∧
        q.2.regexes.any (fun pat => rmatch pat text) = false) →
      ∃ m, identify_pool_from_data dec rmatch pools hex addrs = some m ∧
        m.id = pid ∧ m.identification_method = "tag") := by
  constructor
  · intro hex2
    obtain ⟨m, hm⟩ := identify_by_address_some_of_ex pools addrs hex2
    refine ⟨enrichOcean m hex, ?_, ?_⟩
    · simp [identify_pool_from_data, hm]
    · rw [enrichOcean_method]
      unfold identify_by_address at hm
      by_cases he : addrs.isEmpty = true
      · rw [if_pos he] at hm
        exact absurd hm (by simp)
      · rw [if_neg he] at hm
        exact identify_by_address_go_method addrs pools m hm
  · intro hba pre pid p post hpools text htext hne hmatch hpre
    have htag : identify_by_tag dec rmatch pools hex =
        some (mkPoolMatch pid p "tag") := by
      unfold identify_by_tag
      rw [hne]
      simp only [Bool.false_eq_true, if_false]
      rw [htext, hpools]
      exact identify_by_tag_go_first_match rmatch text pid p pre post hmatch hpre
    refine ⟨enrichOcean (mkPoolMatch pid p "tag") hex, ?_, ?_, ?_⟩
    · simp [identify_pool_from_data, hba, htag]
    · rw [enrichOcean_id]
      rfl
    · rw [enrichOcean_method]
      rfl

/-- Byte-to-text decoding restricted to ASCII: on bytes below 0x80 this
is exactly Python bytes.decode with utf-8 (with or without replacement);
it instantiates the decoder parameter for concrete ASCII inputs. -/
def asciiDecode (bs : List Nat) : List Char :=
  bs.map Char.ofNat

/-- Case-insensitive literal containment: on a regex pattern free of
metacharacters this is exactly re.search with IGNORECASE; it
instantiates the regex-matcher parameter for concrete literal
patterns. -/
def literalCI (pat text : List Char) : Bool :=
  isSubstringOf (pat.map Char.toLower) (text.map Char.toLower)

/-- Concrete C2 rule set: pool p1 has only the regex foox, pool p2 has
only the literal tag bar. -/
def cxC2pools : List (String × PoolDef) :=
  [("p1", ⟨"Pool One", none, "", [], [], [("foox").data]⟩),
   ("p2", ⟨"Pool Two", none, "", [], [("bar").data], []⟩)]

/-- Concrete C2 coinbase script: the hex of the ASCII text fooxbar,
which contains both the regex of p1 and the literal tag of p2. -/
def cxC2hex : List Char := ("666f6f78626172").data

/-- C2 counterexample: with no address match, a literal tag of a later
pool (p2) is a substring of the decoded script text, yet the result is
the earlier pool p1 via its regex — the literal-tag tier does not beat
regex matches across pools. -/
theorem claim_C2_counterexample :
    (identify_pool_from_data asciiDecode literalCI cxC2pools cxC2hex []).map
      (fun m => (m.id, m.identification_method)) = some ("p1", "tag") ∧
    decode_coinbase_text asciiDecode cxC2hex = some (("fooxbar").data) ∧
    isSubstringOf (("bar").data) (("fooxbar").data) = true ∧
    (cxC2pools.map (fun pr => pr.2.tags)) = [[], [("bar").data]] := by
  refine ⟨by decide, by decide, by decide, by decide⟩

/-- C2 witness: the amended priority theorem applied to the concrete
rule set: an address match on p2 wins over everything, and with no
address match the first tag-tier matching pool in iteration order (p1,
via regex) wins. -/
theorem claim_C2_witness :
    (∃ m, identify_pool_from_data asciiDecode literalCI
      [("p1", ⟨"Pool One", none, "", [], [], [("foox").data]⟩),
       ("p2", ⟨"Pool Two", none, "", ["bc1qx"], [("bar").data], []⟩)]
      cxC2hex ["bc1qx"] = some m ∧
      m.identification_method = "address") ∧
    (∃ m, identify_pool_from_data asciiDecode literalCI cxC2pools cxC2hex []
      = some m ∧ m.id = "p1" ∧ m.identification_method = "tag") := by
  constructor
  · exact (claim_C2_priority asciiDecode literalCI
      [("p1", ⟨"Pool One", none, "", [], [], [("foox").data]⟩),
       ("p2", ⟨"Pool Two", none, "", ["bc1qx"], [("bar").data], []⟩)]
      cxC2hex ["bc1qx"]).1
      ⟨("p2", ⟨"Pool Two", none, "", ["bc1qx"], [("bar").data], []⟩),
        by decide, "bc1qx", by decide, by decide⟩
  · exact (claim_C2_priority asciiDecode literalCI cxC2pools cxC2hex []).2
      (by decide) [] "p1" ⟨"Pool One", none, "", [], [], [("foox").data]⟩
      [("p2", ⟨"Pool Two", none, "", [], [("bar").data], []⟩)] rfl
      (("fooxbar").data) (by decide) (by decide)
      (Or.inr (by decide)) (by simp)

/-! ### Claim C8: the DATUM template-creator parser -/

/-- Transcribes the specification's description of the DATUM template
parser, for comparison with the code: treat the coinbase script as
bytes, skip the height push of 1 + script[0] bytes, read the tag-region
length from the next byte — advancing one byte and re-reading the
length when that byte equals 0x4C — take that many bytes, then strip
NUL, split on 0x0F, keep word characters, trim and drop empties. -/
def spec_datum_names (script : List Nat) : List (List Char) :=
  match script with
  | [] => []
  | b0 :: _ =>
    match script.drop (1 + b0) with
    | [] => []
    | l0 :: rest0 =>
      if l0 = 76 then
        match rest0 with
        | [] => []
        | l1 :: rest1 => cleanNames (rest1.take l1)
      else cleanNames (rest0.take l0)

/-- Transcribes the specification's creator choice: the last remaining
name whose lowercased form contains neither ocean nor datum. -/
def spec_datum_creator (script : List Nat) : Option (List Char) :=
  (spec_datum_names script).reverse.find? (fun candidate =>
    let low := candidate.map Char.toLower
    (¬ isSubstringOf oceanChars low) ∧ (¬ isSubstringOf datumChars low))

/-- The in-bounds side condition under which the code's bound checks
all pass and its end-of-script truncation is the identity: the
tag-length byte exists, the tag region starts inside the script and
fits inside it. -/
def datumBoundsOk : List Nat → Prop
  | [] => False
  | b0 :: tail =>
    1 + b0 < (b0 :: tail).length ∧
    (if (b0 :: tail).getD (1 + b0) 0 = 76 then
      1 + b0 + 2 < (b0 :: tail).length ∧
        1 + b0 + 2 + (b0 :: tail).getD (1 + b0 + 1) 0 ≤ (b0 :: tail).length
    else
      1 + b0 + 1 < (b0 :: tail).length ∧
        1 + b0 + 1 + (b0 :: tail).getD (1 + b0) 0 ≤ (b0 :: tail).length)

instance datumBoundsOk_decidable : DecidablePred datumBoundsOk := fun bytes => by
  cases bytes with
  | nil => exact (inferInstance : Decidable False)
  | cons b0 tail =>
    unfold datumBoundsOk
    infer_instance

theorem hexToBytesLoose_of_strict : ∀ (hex : List Char) (bytes : List Nat),
    hexToBytes hex = some bytes → hexToBytesLoose hex = bytes
  | [], bytes => by
    intro h
    simp [hexToBytes] at h
    simp [hexToBytesLoose, h]
  | [c], bytes => by
    intro h
    simp [hexToBytes] at h
  | c1 :: c2 :: rest, bytes => by
    intro h
    simp only [hexToBytes, Option.bind_eq_bind, Option.bind_eq_some] at h
    obtain ⟨h1, hh1, h2, hh2, bs, hbs, heq⟩ := h
    simp only [Option.pure_def, Option.some.injEq] at heq
    subst heq
    simp only [hexToBytesLoose, hh1, hh2]
    rw [hexToBytesLoose_of_strict rest bs hbs]

theorem cleanNames_mem_ne_nil (tagBytes : List Nat) :
    ∀ n ∈ cleanNames tagBytes, n ≠ [] := by
  intro n hn
  simp only [cleanNames, List.mem_map] at hn
  obtain ⟨part, hpart, heq⟩ := hn
  rw [List.mem_filter] at hpart
  have h2 := hpart.2
  simp only [decide_eq_true_eq, Bool.decide_and] at h2
  intro hcon
  rw [← heq] at hcon
  have : (stripWS part).isEmpty = true := by
    rw [hcon]; rfl
  revert h2
  simp [this]

theorem find?_congr_on {α : Type} (p q : α → Bool) :
    ∀ (l : List α), (∀ a ∈ l, p a = q a) → l.find? p = l.find? q
  | [], _ => rfl
  | a :: l, h => by
    have ha := h a (List.mem_cons_self _ _)
    simp only [List.find?, ha]
    cases hq : q a
    · simp only []
      exact find?_congr_on p q l (fun x hx => h x (List.mem_cons_of_mem _ hx))
    · rfl

theorem spec_datum_names_mem_ne_nil (script : List Nat) :
    ∀ n ∈ spec_datum_names script, n ≠ [] := by
  rcases script with - | ⟨b0, tail⟩
  · simp [spec_datum_names]
  · simp only [spec_datum_names]
    rcases hd : (b0 :: tail).drop (1 + b0) with - | ⟨l0, rest0⟩
    · simp
    · dsimp only
      by_cases h4c : l0 = 76
      · rw [if_pos h4c]
        rcases rest0 with - | ⟨l1, rest1⟩
        · simp
        · exact cleanNames_mem_ne_nil _
      · rw [if_neg h4c]
        exact cleanNames_mem_ne_nil _

/-- C8: the DATUM template parser of the code computes exactly the
specification's description on every coinbase script whose hex decodes
strictly and whose tag region lies within the script (the 0x4C
OP_PUSHDATA1 re-read included), and the recorded creator is the last
cleaned name whose lowercased form contains neither ocean nor datum. -/
theorem claim_C8_datum_names_eq (hex : List Char) (bytes : List Nat)
    (hhex : hexToBytes hex = some bytes)
    (hb : datumBoundsOk bytes) :
    parse_datum_template_creator_names hex = spec_datum_names bytes ∧
    datum_template_creator_of hex = spec_datum_creator bytes := by
  have hloose : hexToBytesLoose hex = bytes := hexToBytesLoose_of_strict hex bytes hhex
  have hnames : parse_datum_template_creator_names hex = spec_datum_names bytes := by
    match hbytes : bytes with
    | [] => simp [datumBoundsOk] at hb
    | b0 :: tail =>
      have hhexne : hex.isEmpty = false := by
        cases hex
        · rw [show hexToBytes [] = some [] from rfl, Option.some.injEq] at hhex
          exact absurd hhex.symm (by simp)
        · rfl
      simp only [datumBoundsOk] at hb
      obtain ⟨hi0lt, hrest⟩ := hb
      have hdrop : (b0 :: tail).drop (1 + b0) =
          (b0 :: tail).getD (1 + b0) 0 :: (b0 :: tail).drop (1 + b0 + 1) := by
        rw [List.getD_eq_getElem _ _ hi0lt]
        exact List.drop_eq_getElem_cons hi0lt
      simp only [parse_datum_template_creator_names, hhexne, Bool.false_eq_true,
        if_false, hloose, spec_datum_names]
      rw [hdrop]
      dsimp only
      rw [if_neg (by omega : ¬ 1 + b0 ≥ (b0 :: tail).length)]
      by_cases h4c : (b0 :: tail).getD (1 + b0) 0 = 76
      · rw [if_pos h4c] at hrest
        obtain ⟨hstart, hfit⟩ := hrest
        have hlt1 : 1 + b0 + 1 < (b0 :: tail).length := by omega
        have hdrop2 : (b0 :: tail).drop (1 + b0 + 1) =
            (b0 :: tail).getD (1 + b0 + 1) 0 :: (b0 :: tail).drop (1 + b0 + 1 + 1) := by
          rw [List.getD_eq_getElem _ _ hlt1]
          exact List.drop_eq_getElem_cons hlt1
        rw [hdrop2]
        dsimp only
        simp only [h4c, eq_self_iff_true, if_true, true_and]
        rw [if_neg (by omega : ¬ 1 + b0 + 1 ≥ (b0 :: tail).length)]
        rw [if_neg (by omega : ¬ 1 + b0 + 1 + 1 ≥ (b0 :: tail).length)]
        have harg : min (1 + b0 + 1 + 1 + (b0 :: tail).getD (1 + b0 + 1) 0)
            (b0 :: tail).length - (1 + b0 + 1 + 1) =
            (b0 :: tail).getD (1 + b0 + 1) 0 := by
          omega
        rw [harg]
      · rw [if_neg h4c] at hrest
        obtain ⟨hstart, hfit⟩ := hrest
        simp only [h4c, if_false, false_and]
        rw [if_neg (by omega : ¬ 1 + b0 + 1 ≥ (b0 :: tail).length)]
        have harg : min (1 + b0 + 1 + (b0 :: tail).getD (1 + b0) 0)
            (b0 :: tail).length - (1 + b0 + 1) =
            (b0 :: tail).getD (1 + b0) 0 := by
          omega
        rw [harg]
  refine ⟨hnames, ?_⟩
  unfold datum_template_creator_of spec_datum_creator
  rw [hnames]
  apply find?_congr_on
  intro n hn
  rw [List.mem_reverse] at hn
  have hne : n ≠ [] := spec_datum_names_mem_ne_nil bytes n hn
  have hlow : (n.map Char.toLower).isEmpty = false := by
    cases n
    · exact absurd rfl hne
    · rfl
  dsimp only
  rw [decide_eq_decide]
  constructor
  · rintro ⟨-, h2, h3⟩
    exact ⟨h2, h3⟩
  · rintro ⟨h2, h3⟩
    exact ⟨by simp [hlow], h2, h3⟩

/-- Concrete C8 coinbase script: a 3-byte height push, then an
OP_PUSHDATA1 byte 0x4C, a tag-region length of 15, and the tag region
DATUM, Alice, Bob separated by 0x0F. -/
def wxC8hex : List Char := ("030102034c0f444154554d0f416c6963650f426f62").data

def wxC8bytes : List Nat :=
  [3, 1, 2, 3, 76, 15, 68, 65, 84, 85, 77, 15, 65, 108, 105, 99, 101, 15,
   66, 111, 98]

/-- C8 witness: the parser theorem applied to the concrete script with
an OP_PUSHDATA1 length byte; the recorded creator is Bob, the last name
that is neither an OCEAN nor a DATUM marker. -/
theorem claim_C8_witness :
    (parse_datum_template_creator_names wxC8hex = spec_datum_names wxC8bytes ∧
      datum_template_creator_of wxC8hex = spec_datum_creator wxC8bytes) ∧
    datum_template_creator_of wxC8hex = some ['B', 'o', 'b'] :=
  ⟨claim_C8_datum_names_eq wxC8hex wxC8bytes (by decide) (by decide), by decide⟩

/-! ### Claims C6 and C7: the Stratum line-framing reader -/

theorem splitOnceNL_no_newline (l : List Nat) (h : 10 ∉ l) :
    splitOnceNL l = (l, none) := by
  induction l with
  | nil => rfl
  | cons b rest ih =>
    have hb : b ≠ 10 := fun hcon => h (hcon ▸ List.mem_cons_self _ _)
    simp only [splitOnceNL, if_neg hb]
    rw [ih (fun hcon => h (List.mem_cons_of_mem _ hcon))]

theorem splitOnceNL_append (M rest : List Nat) (h : 10 ∉ M) :
    splitOnceNL (M ++ 10 :: rest) = (M, some rest) := by
  induction M with
  | nil => simp [splitOnceNL]
  | cons b bs ih =>
    have hb : b ≠ 10 := fun hcon => h (hcon ▸ List.mem_cons_self _ _)
    simp only [List.cons_append, splitOnceNL, if_neg hb, List.append_eq]
    rw [ih (fun hcon => h (List.mem_cons_of_mem _ hcon))]

/-- One get_msg iteration that needs more data (the buffered first line
is empty or fails to parse) consumes the next nonempty chunk into the
buffer. -/
theorem get_msg_step_read {J : Type} (parse : List Nat → Option J)
    (buf line : List Nat) (restbuf : Option (List Nat))
    (c : List Nat) (cs : List (List Nat))
    (hsplit : splitOnceNL buf = (line, restbuf))
    (hneed : line = [] ∨ parse line = none) (hc : c ≠ []) :
    get_msg parse buf (c :: cs) = get_msg parse (buf ++ c) cs := by
  simp only [get_msg, hsplit]
  rcases hneed with h1 | h1
  · rw [if_pos h1, if_neg hc]
  · by_cases hline : line = []
    · rw [if_pos hline, if_neg hc]
    · rw [if_neg hline, h1, if_neg hc]

/-- A get_msg iteration that needs more data and has no further
nonempty chunk fails with EOFError. -/
theorem get_msg_step_lost {J : Type} (parse : List Nat → Option J)
    (buf line : List Nat) (restbuf : Option (List Nat))
    (recvs : List (List Nat))
    (hsplit : splitOnceNL buf = (line, restbuf))
    (hneed : line = [] ∨ parse line = none)
    (hr : recvs = [] ∨ ∃ cs, recvs = [] :: cs) :
    get_msg parse buf recvs = GetMsgResult.connectionLost := by
  rcases hr with hr | ⟨cs, hr⟩ <;> subst hr <;> simp only [get_msg, hsplit]
  · rcases hneed with h1 | h1
    · rw [if_pos h1]
    · by_cases hline : line = []
      · rw [if_pos hline]
      · rw [if_neg hline, h1]
  · rcases hneed with h1 | h1
    · rw [if_pos h1]
      simp
    · by_cases hline : line = []
      · rw [if_pos hline]
        simp
      · rw [if_neg hline, h1]
        simp

/-- A get_msg iteration whose buffered first line parses returns that
message, consumes the line from the buffer, and leaves the chunks
untouched. -/
theorem get_msg_step_msg {J : Type} (parse : List Nat → Option J)
    (buf line : List Nat) (restbuf : Option (List Nat))
    (recvs : List (List Nat)) (j : J)
    (hsplit : splitOnceNL buf = (line, restbuf))
    (hline : line ≠ []) (hparse : parse line = some j) :
    get_msg parse buf recvs = GetMsgResult.msg j (restbuf.getD []) recvs := by
  cases recvs with
  | nil =>
    simp only [get_msg, hsplit]
    rw [if_neg hline, hparse]
  | cons c cs =>
    simp only [get_msg, hsplit]
    rw [if_neg hline, hparse]

/-- C6: a buffered line that is complete (newline-terminated) but is
not valid JSON is never discarded by get_msg: the reader splits the
buffer at the same offending line on every iteration, keeps reading,
and ends in EOFError when the chunks run out — later well-formed lines
are never returned.  This holds for every line parser, every stream of
subsequent chunks and whatever follows the bad line in the buffer. -/
theorem claim_C6_invalid_line_never_discarded {J : Type}
    (parse : List Nat → Option J) (bad : List Nat)
    (_hbad : bad ≠ []) (hnl : 10 ∉ bad) (hparse : parse bad = none) :
    ∀ (recvs : List (List Nat)) (junk : List Nat),
      get_msg parse (bad ++ 10 :: junk) recvs = GetMsgResult.connectionLost := by
  intro recvs
  induction recvs with
  | nil =>
    intro junk
    exact get_msg_step_lost parse _ bad (some junk) []
      (splitOnceNL_append bad junk hnl) (Or.inr hparse) (Or.inl rfl)
  | cons c cs ih =>
    intro junk
    by_cases hc : c = []
    · subst hc
      exact get_msg_step_lost parse _ bad (some junk) ([] :: cs)
        (splitOnceNL_append bad junk hnl) (Or.inr hparse) (Or.inr ⟨cs, rfl⟩)
    · rw [get_msg_step_read parse _ bad (some junk) c cs
        (splitOnceNL_append bad junk hnl) (Or.inr hparse) hc]
      rw [List.append_assoc, List.cons_append]
      exact ih (junk ++ c)

/-- Concrete C6 parser: accepts exactly the empty JSON object line. -/
def wxC6parse (l : List Nat) : Option Nat :=
  if l = [123, 125] then some 0 else none

/-- C6 witness: the never-discarded theorem applied to a concrete
stream whose buffer holds an invalid line followed by a valid message
line; the reader ends in EOFError without returning the valid
message. -/
theorem claim_C6_witness :
    get_msg wxC6parse ([98, 97, 100] ++ 10 :: [123, 125, 10]) [[123, 125, 10]] =
      GetMsgResult.connectionLost :=
  claim_C6_invalid_line_never_discarded wxC6parse [98, 97, 100]
    (by decide) (by decide) (by decide) [[123, 125, 10]] [123, 125, 10]

/-- C7: a newline-terminated JSON object whose bytes arrive split
across two socket reads is returned exactly once: with the split k
strictly inside the object's bytes, no strict byte prefix of the
object parsing as a message, and the terminating newline arriving in
the second read, get_msg buffers the first fragment, completes the
line with the second read, and returns the object once, leaving the
bytes after the newline as the new buffer and the later chunks
unconsumed. -/
theorem claim_C7_split_frame_exactly_once {J : Type}
    (parse : List Nat → Option J) (M rest : List Nat) (k : Nat) (j : J)
    (more : List (List Nat))
    (hk0 : 0 < k) (hklen : k < M.length) (hnl : 10 ∉ M)
    (hparse : parse M = some j)
    (hpre : ∀ i, i < M.length → parse (M.take i) = none) :
    get_msg parse [] (M.take k :: (M.drop k ++ 10 :: rest) :: more) =
      GetMsgResult.msg j rest more := by
  have hMne : M ≠ [] := by
    intro hcon
    rw [hcon] at hklen
    simp at hklen
  have htakene : M.take k ≠ [] := by
    rw [ne_eq, List.take_eq_nil_iff]
    push_neg
    constructor
    · omega
    · exact hMne
  have hc2ne : M.drop k ++ 10 :: rest ≠ [] := by
    intro hcon
    rcases List.append_eq_nil.mp hcon with ⟨-, h2⟩
    exact absurd h2 (by simp)
  have hnltake : 10 ∉ M.take k := fun hcon => hnl (List.take_subset _ _ hcon)
  rw [get_msg_step_read parse [] [] none (M.take k) _ rfl (Or.inl rfl) htakene]
  rw [List.nil_append]
  rw [get_msg_step_read parse (M.take k) (M.take k) none _ more
    (splitOnceNL_no_newline (M.take k) hnltake)
    (Or.inr (hpre k hklen)) hc2ne]
  rw [← List.append_assoc, List.take_append_drop]
  exact get_msg_step_msg parse (M ++ 10 :: rest) M (some rest) more j
    (splitOnceNL_append M rest hnl) hMne hparse

/-- Concrete C7 parser: accepts exactly the empty JSON object line. -/
def wxC7parse (l : List Nat) : Option Nat :=
  if l = [123, 125] then some 7 else none

/-- C7 witness: the exactly-once theorem applied to the two-byte
object split one byte per read, with trailing bytes after the newline
and a further unconsumed chunk. -/
theorem claim_C7_witness :
    get_msg wxC7parse []
      ([123, 125].take 1 :: ([123, 125].drop 1 ++ 10 :: [55]) :: [[99]]) =
      GetMsgResult.msg 7 [55] [[99]] :=
  claim_C7_split_frame_exactly_once wxC7parse [123, 125] [55] 1 7 [[99]]
    (by decide) (by decide) (by decide) (by decide) (by decide)

end StratumWork
